import Mathlib

/-!
Shallow embedding of `massa-models/src/output_event.rs`.

The file embeds the three data types of the source file — `SCOutputEventId`,
`EventExecutionContext` and `SCOutputEvent` — together with the identity
codecs, and proves the round-trip, ordering, error-discipline and
field-layout properties stated in the specification.

The underlying hash primitive (`massa_hash::hash::Hash`), the base58check
text codec, the `Slot` / `BlockId` / `Address` value types, the error enum
conversions and the structured record codec are collaborators of the source
file that are not part of the given fragment; they are modelled from the
specification, each such definition carries a doc comment saying so.
Rust byte values (`u8`) are modelled as natural numbers below 256, byte
arrays as lists of such numbers, and Rust strings as lists of characters.
-/

/-- Modelled from the spec: the constant digest size (`EVENT_ID_SIZE_BYTES`
in `massa-models/src/settings.rs`, not part of the fragment); the byte
length of the fixed-size cryptographic digest. -/
def EVENT_ID_SIZE_BYTES : Nat := 32

/-- Modelled from the spec: the error type of the external hash primitive;
only its existence matters to the fragment, every variant is mapped to the
single hash-decode failure of the models crate. -/
inductive MassaHashError where
  | hashDecodeFailed
deriving DecidableEq

/-- Modelled from the spec: the generic error type of the models crate
(`ModelsError`, not part of the fragment). Only the hash-decode case
(`HashError`) is relevant here; a second variant stands for all the other
variants of the real enum so that "fails only with the hash error kind" is
a meaningful statement. -/
inductive ModelsError where
  | hashError
  | otherError
deriving DecidableEq

/-- Modelled from the spec: the fixed-size cryptographic digest backing an
event identity (`massa_hash::hash::Hash`, not part of the fragment): a byte
sequence of constant length `EVENT_ID_SIZE_BYTES`, each byte below 256. -/
structure Hash where
  digest : List Nat
  size_ok : digest.length = EVENT_ID_SIZE_BYTES
  bytes_ok : ∀ b ∈ digest, b < 256

theorem Hash.eq_of_digest_eq : ∀ {a b : Hash}, a.digest = b.digest → a = b := by
  intro a b h
  cases a
  cases b
  cases h
  rfl

instance : DecidableEq Hash := fun a b =>
  if h : a.digest = b.digest then isTrue (Hash.eq_of_digest_eq h)
  else isFalse (fun hab => h (congrArg Hash.digest hab))

/-- Modelled from the spec: `Hash::to_bytes` returns the exact-size byte
encoding of the digest, no header and no length prefix. -/
def Hash.to_bytes (h : Hash) : List Nat := h.digest

/-- Modelled from the spec: `Hash::into_bytes` is the consuming variant of
`Hash::to_bytes` and produces the same byte encoding. -/
def Hash.into_bytes (h : Hash) : List Nat := h.digest

/-- Modelled from the spec: `Hash::from_bytes` reconstructs the digest from
exactly `EVENT_ID_SIZE_BYTES` bytes and fails on anything that is not a
valid digest. -/
def Hash.from_bytes (data : List Nat) : Except MassaHashError Hash :=
  if h : data.length = EVENT_ID_SIZE_BYTES ∧ ∀ b ∈ data, b < 256 then
    .ok ⟨data, h.1, h.2⟩
  else .error .hashDecodeFailed

/-- Modelled from the spec: the base58 alphabet used by the checksummed
text encoding (58 distinct characters, digit 0 is the character one). -/
def base58Alphabet : List Char :=
  ['1', '2', '3', '4', '5', '6', '7', '8', '9',
   'A', 'B', 'C', 'D', 'E', 'F', 'G', 'H', 'J', 'K', 'L', 'M', 'N',
   'P', 'Q', 'R', 'S', 'T', 'U', 'V', 'W', 'X', 'Y', 'Z',
   'a', 'b', 'c', 'd', 'e', 'f', 'g', 'h', 'i', 'j', 'k', 'm', 'n',
   'o', 'p', 'q', 'r', 's', 't', 'u', 'v', 'w', 'x', 'y', 'z']

/-- Character of a base58 digit. -/
def b58digitChar (d : Nat) : Char := base58Alphabet.getD d '?'

/-- Digit of a base58 character; fails on characters outside the alphabet. -/
def b58charDigit (c : Char) : Option Nat :=
  if base58Alphabet.indexOf c < base58Alphabet.length then
    some (base58Alphabet.indexOf c)
  else none

/-- Little-endian base-`b` digits of `n`, computed with an explicit fuel so
that the function is structurally recursive and kernel-evaluable. -/
def natDigitsLE (b : Nat) : Nat → Nat → List Nat
  | 0, _ => []
  | fuel + 1, n => if n = 0 then [] else n % b :: natDigitsLE b fuel (n / b)

/-- Little-endian base-`b` digits of `n` (`natDigitsLE` with enough fuel). -/
def natDigits (b n : Nat) : List Nat := natDigitsLE b n n

theorem natDigitsLE_eq_digits (b : Nat) (hb : 1 < b) :
    ∀ fuel n, n ≤ fuel → natDigitsLE b fuel n = Nat.digits b n := by
  intro fuel
  induction fuel with
  | zero =>
    intro n hn
    have h0 : n = 0 := Nat.le_zero.mp hn
    subst h0
    simp [natDigitsLE]
  | succ fuel ih =>
    intro n hn
    by_cases h0 : n = 0
    · subst h0
      simp [natDigitsLE]
    · have hpos : 0 < n := Nat.pos_of_ne_zero h0
      have hdiv : n / b ≤ fuel := by
        have : n / b < n := Nat.div_lt_self hpos hb
        omega
      simp only [natDigitsLE, h0, if_false]
      rw [ih (n / b) hdiv, Nat.digits_def' hb hpos]

theorem natDigits_eq (b n : Nat) (hb : 1 < b) : natDigits b n = Nat.digits b n :=
  natDigitsLE_eq_digits b hb n n le_rfl

/-- Parse a sequence of base58 characters into digits; fails as soon as one
character is outside the alphabet. -/
def parseB58Digits : List Char → Option (List Nat)
  | [] => some []
  | c :: cs =>
    match b58charDigit c, parseB58Digits cs with
    | some d, some ds => some (d :: ds)
    | _, _ => none

theorem b58charDigit_b58digitChar : ∀ d < 58, b58charDigit (b58digitChar d) = some d := by
  decide

theorem b58digitChar_ne_one : ∀ d < 58, d ≠ 0 → b58digitChar d ≠ '1' := by
  decide

theorem parseB58Digits_map (ds : List Nat) (h : ∀ d ∈ ds, d < 58) :
    parseB58Digits (ds.map b58digitChar) = some ds := by
  induction ds with
  | nil => rfl
  | cons d t ih =>
    have hd : b58charDigit (b58digitChar d) = some d :=
      b58charDigit_b58digitChar d (h d (by simp))
    simp [parseB58Digits, hd, ih (fun x hx => h x (by simp [hx]))]

/-- Modelled from the spec: base58 textual encoding of a byte string — one
alphabet character (the digit-zero character) per leading zero byte,
followed by the big-endian base-58 digits of the big-endian value of the
remaining bytes. -/
def base58Encode (bs : List Nat) : List Char :=
  List.replicate (bs.takeWhile (· == 0)).length '1' ++
    (natDigits 58 (Nat.ofDigits 256 (bs.dropWhile (· == 0)).reverse)).reverse.map b58digitChar

/-- Modelled from the spec: base58 textual decoding — one zero byte per
leading digit-zero character, followed by the big-endian bytes of the value
of the remaining base-58 digits; fails on characters outside the
alphabet. -/
def base58Decode (s : List Char) : Option (List Nat) :=
  match parseB58Digits (s.dropWhile (· == '1')) with
  | none => none
  | some ds =>
    some (List.replicate (s.takeWhile (· == '1')).length 0 ++
      (natDigits 256 (Nat.ofDigits 58 ds.reverse)).reverse)

theorem takeWhile_append_of_all {α : Type} {p : α → Bool} {l₁ l₂ : List α}
    (h : ∀ x ∈ l₁, p x) : (l₁ ++ l₂).takeWhile p = l₁ ++ l₂.takeWhile p := by
  induction l₁ with
  | nil => simp
  | cons a t ih =>
    have ha : p a := h a (by simp)
    simp [List.takeWhile_cons, ha, ih (fun x hx => h x (by simp [hx]))]

theorem dropWhile_append_of_all {α : Type} {p : α → Bool} {l₁ l₂ : List α}
    (h : ∀ x ∈ l₁, p x) : (l₁ ++ l₂).dropWhile p = l₂.dropWhile p := by
  induction l₁ with
  | nil => simp
  | cons a t ih =>
    have ha : p a := h a (by simp)
    simp [List.dropWhile_cons, ha, ih (fun x hx => h x (by simp [hx]))]

theorem dropWhile_cons_head_ne {bs : List Nat} {a : Nat} {t : List Nat}
    (h : bs.dropWhile (· == 0) = a :: t) : a ≠ 0 := by
  have hne : bs.dropWhile (· == 0) ≠ [] := by simp [h]
  have h1 := List.head_dropWhile_not (· == 0) bs hne
  have h2 : (bs.dropWhile (· == 0)).head hne = a := by
    have h3 := congrArg List.head? h
    rw [List.head?_eq_head hne] at h3
    simpa using h3
  rw [h2] at h1
  simpa using h1

theorem natDigits256_roundtrip (R : List Nat) (hmem : ∀ x ∈ R, x < 256)
    (hhead : ∀ a t, R = a :: t → a ≠ 0) :
    (natDigits 256 (Nat.ofDigits 256 R.reverse)).reverse = R := by
  rcases hr : R with _ | ⟨a, t⟩
  · simp [natDigits, natDigitsLE, Nat.ofDigits_nil]
  · have ha : a ≠ 0 := hhead a t hr
    have hrev : ∀ x ∈ (a :: t).reverse, x < 256 := by
      intro x hx
      rw [List.mem_reverse] at hx
      exact hmem x (hr ▸ hx)
    have hlast : ∀ h : (a :: t).reverse ≠ [], ((a :: t).reverse).getLast h ≠ 0 := by
      intro hne
      have h1 : ((a :: t).reverse).getLast? = some a := by
        rw [List.getLast?_reverse]
        rfl
      rw [List.getLast?_eq_getLast _ hne] at h1
      simp only [Option.some.injEq] at h1
      rw [h1]
      exact ha
    rw [natDigits_eq _ _ (by norm_num),
      Nat.digits_ofDigits 256 (by norm_num) _ hrev hlast, List.reverse_reverse]

theorem b58chars_head_ne_one (n : Nat) (c : Char) (rest : List Char)
    (h : (natDigits 58 n).reverse.map b58digitChar = c :: rest) : (c == '1') = false := by
  rcases hds : (natDigits 58 n).reverse with _ | ⟨d, ds⟩
  · rw [hds] at h
    simp at h
  · rw [hds] at h
    simp only [List.map_cons, List.cons.injEq] at h
    have hn0 : n ≠ 0 := by
      intro hn
      rw [hn] at hds
      simp [natDigits, natDigitsLE] at hds
    have hd58 : d < 58 := by
      have hdm : d ∈ (natDigits 58 n).reverse := by
        rw [hds]
        simp
      rw [List.mem_reverse, natDigits_eq _ _ (by norm_num)] at hdm
      exact Nat.digits_lt_base (by norm_num) hdm
    have hne : Nat.digits 58 n ≠ [] := Nat.digits_ne_nil_iff_ne_zero.mpr hn0
    have hd0 : d ≠ 0 := by
      have h1 : (natDigits 58 n).reverse.head? = some d := by
        rw [hds]
        rfl
      rw [natDigits_eq _ _ (by norm_num), List.head?_reverse,
        List.getLast?_eq_getLast _ hne] at h1
      simp only [Option.some.injEq] at h1
      rw [← h1]
      exact Nat.getLast_digit_ne_zero 58 hn0
    have hcne : b58digitChar d ≠ '1' := b58digitChar_ne_one d hd58 hd0
    rw [← h.1]
    simpa using hcne

theorem base58Decode_encode (bs : List Nat) (hb : ∀ x ∈ bs, x < 256) :
    base58Decode (base58Encode bs) = some bs := by
  set Z : List Nat := bs.takeWhile (· == 0) with hZ
  set R : List Nat := bs.dropWhile (· == 0) with hR
  set n : Nat := Nat.ofDigits 256 R.reverse with hn
  set C : List Char := (natDigits 58 n).reverse.map b58digitChar with hCdef
  have hencode : base58Encode bs = List.replicate Z.length '1' ++ C := rfl
  have hones : ∀ c ∈ List.replicate Z.length '1', (c == '1') = true := by
    intro c hc
    have hc1 : c = '1' := List.eq_of_mem_replicate hc
    simp [hc1]
  have hCtake : C.takeWhile (· == '1') = [] := by
    rcases hC : C with _ | ⟨c, rest⟩
    · rfl
    · exact List.takeWhile_cons_of_neg (by
        simp [b58chars_head_ne_one n c rest (hCdef.symm.trans hC)])
  have hCdrop : C.dropWhile (· == '1') = C := by
    rcases hC : C with _ | ⟨c, rest⟩
    · rfl
    · exact List.dropWhile_cons_of_neg (by
        simp [b58chars_head_ne_one n c rest (hCdef.symm.trans hC)])
  have htake : (List.replicate Z.length '1' ++ C).takeWhile (· == '1') =
      List.replicate Z.length '1' := by
    rw [takeWhile_append_of_all hones, hCtake, List.append_nil]
  have hdrop : (List.replicate Z.length '1' ++ C).dropWhile (· == '1') = C := by
    rw [dropWhile_append_of_all hones, hCdrop]
  have hds : ∀ d ∈ (natDigits 58 n).reverse, d < 58 := by
    intro d hd
    rw [List.mem_reverse, natDigits_eq _ _ (by norm_num)] at hd
    exact Nat.digits_lt_base (by norm_num) hd
  have hparse : parseB58Digits C = some ((natDigits 58 n).reverse) := by
    rw [hCdef]
    exact parseB58Digits_map _ hds
  have hRmem : ∀ x ∈ R, x < 256 := by
    intro x hx
    exact hb x ((List.dropWhile_sublist _).subset hx)
  have hRhead : ∀ a t, R = a :: t → a ≠ 0 := fun a t hat => dropWhile_cons_head_ne hat
  have hZrep : List.replicate Z.length 0 = Z := by
    symm
    rw [List.eq_replicate_iff]
    refine ⟨rfl, ?_⟩
    intro x hx
    have := List.mem_takeWhile_imp hx
    simpa using this
  rw [hencode]
  unfold base58Decode
  rw [hdrop, hparse]
  simp only []
  rw [htake, List.length_replicate, List.reverse_reverse,
    natDigits_eq 58 n (by norm_num), Nat.ofDigits_digits, hn,
    natDigits256_roundtrip R hRmem hRhead, hZrep, Option.some.injEq, hZ, hR]
  exact List.takeWhile_append_dropWhile _ _

/-- One folded checksum byte: a running fold reduced modulo 256 at each
step, so the result is always a byte. -/
def csFold (f : Nat → Nat → Nat) (init : Nat) (l : List Nat) : Nat :=
  l.foldl (fun a b => f a b % 256) init

theorem csFold_lt (f : Nat → Nat → Nat) (init : Nat) (l : List Nat)
    (h : init < 256) : csFold f init l < 256 := by
  induction l generalizing init with
  | nil => exact h
  | cons a t ih => exact ih _ (Nat.mod_lt _ (by norm_num))

/-- Modelled from the spec: the four-byte integrity checksum embedded in
the checksummed text encoding (the exact algorithm belongs to the external
hash primitive; any fixed byte-valued function of the payload realises the
contract). -/
def checksum (l : List Nat) : List Nat :=
  [csFold (fun a b => a + b) 0 l,
   csFold (fun a b => a * 31 + b) 1 l,
   csFold (fun a b => a + 7 * b + 1) 2 l,
   l.length % 256]

theorem checksum_length (l : List Nat) : (checksum l).length = 4 := rfl

theorem checksum_lt (l : List Nat) : ∀ x ∈ checksum l, x < 256 := by
  intro x hx
  simp only [checksum, List.mem_cons, List.not_mem_nil, or_false] at hx
  rcases hx with h | h | h | h <;> rw [h]
  · exact csFold_lt _ _ _ (by norm_num)
  · exact csFold_lt _ _ _ (by norm_num)
  · exact csFold_lt _ _ _ (by norm_num)
  · exact Nat.mod_lt _ (by norm_num)

/-- Modelled from the spec: `Hash::to_bs58_check` — the canonical
human-readable encoding of the digest: base58 over the digest bytes with
the embedded checksum. -/
def Hash.to_bs58_check (h : Hash) : List Char :=
  base58Encode (h.digest ++ checksum h.digest)

/-- Modelled from the spec: `Hash::from_bs58_check` — decodes the base58
text, validates the embedded checksum, and rebuilds the digest from the
remaining payload bytes; fails on malformed base58, on a checksum mismatch
and on a payload that is not a valid digest. -/
def Hash.from_bs58_check (s : List Char) : Except MassaHashError Hash :=
  match base58Decode s with
  | none => .error .hashDecodeFailed
  | some bytes =>
    if bytes.drop (bytes.length - 4) = checksum (bytes.take (bytes.length - 4)) then
      Hash.from_bytes (bytes.take (bytes.length - 4))
    else .error .hashDecodeFailed

/-- Modelled from the spec: `Hash`'s `FromStr` parse is exactly the
checksummed-string decoder; there is only one textual grammar. -/
def Hash.from_str (s : List Char) : Except MassaHashError Hash :=
  Hash.from_bs58_check s

theorem Hash.from_bytes_digest (h : Hash) : Hash.from_bytes h.digest = .ok h := by
  unfold Hash.from_bytes
  rw [dif_pos ⟨h.size_ok, h.bytes_ok⟩]

theorem Hash.bs58_roundtrip (h : Hash) :
    Hash.from_bs58_check h.to_bs58_check = .ok h := by
  have hball : ∀ x ∈ h.digest ++ checksum h.digest, x < 256 := by
    intro x hx
    rcases List.mem_append.mp hx with hx | hx
    · exact h.bytes_ok x hx
    · exact checksum_lt _ x hx
  have hdec := base58Decode_encode (h.digest ++ checksum h.digest) hball
  unfold Hash.to_bs58_check Hash.from_bs58_check
  rw [hdec]
  have hlen : (h.digest ++ checksum h.digest).length - 4 = h.digest.length := by
    rw [List.length_append, checksum_length]
    omega
  have htake : (h.digest ++ checksum h.digest).take
      ((h.digest ++ checksum h.digest).length - 4) = h.digest := by
    rw [hlen, List.take_left]
  have hdrop : (h.digest ++ checksum h.digest).drop
      ((h.digest ++ checksum h.digest).length - 4) = checksum h.digest := by
    rw [hlen, List.drop_left]
  simp only [htake, hdrop, if_pos rfl]
  exact Hash.from_bytes_digest h

/-- `SCOutputEventId(pub Hash)` — the newtype wrapping the digest
(`output_event.rs` lines 19-20). -/
structure SCOutputEventId where
  hash : Hash

instance : DecidableEq SCOutputEventId := fun a b =>
  if h : a.hash = b.hash then isTrue (by cases a; cases b; cases h; rfl)
  else isFalse (fun hab => h (congrArg SCOutputEventId.hash hab))

/-- `SCOutputEventId::to_bytes` (lines 44-46): delegates to
`Hash::to_bytes`. -/
def SCOutputEventId.to_bytes (e : SCOutputEventId) : List Nat :=
  e.hash.to_bytes

/-- `SCOutputEventId::into_bytes` (lines 60-62): delegates to
`Hash::into_bytes`. -/
def SCOutputEventId.into_bytes (e : SCOutputEventId) : List Nat :=
  e.hash.into_bytes

/-- `SCOutputEventId::from_bytes` (lines 76-80): delegates to
`Hash::from_bytes`, mapping every hash error to `ModelsError::HashError`. -/
def SCOutputEventId.from_bytes (data : List Nat) : Except ModelsError SCOutputEventId :=
  match Hash.from_bytes data with
  | .ok h => .ok ⟨h⟩
  | .error _ => .error ModelsError.hashError

/-- `SCOutputEventId::from_bs58_check` (lines 94-98): delegates to
`Hash::from_bs58_check`, mapping every hash error to
`ModelsError::HashError`. -/
def SCOutputEventId.from_bs58_check (s : List Char) : Except ModelsError SCOutputEventId :=
  match Hash.from_bs58_check s with
  | .ok h => .ok ⟨h⟩
  | .error _ => .error ModelsError.hashError

/-- `SCOutputEventId::to_bs58_check` (lines 112-114): delegates to
`Hash::to_bs58_check`. -/
def SCOutputEventId.to_bs58_check (e : SCOutputEventId) : List Char :=
  e.hash.to_bs58_check

/-- Modelled from the spec: the `From` conversion applied by the `?`
operator in the `FromStr` impl; every hash-primitive error becomes the
single hash-decode failure of the models crate. -/
def modelsErrorOfHashError (_ : MassaHashError) : ModelsError :=
  ModelsError.hashError

/-- `impl FromStr for SCOutputEventId` (lines 22-27): delegates to
`Hash::from_str`, converting the error through the models error type. -/
def SCOutputEventId.from_str (s : List Char) : Except ModelsError SCOutputEventId :=
  match Hash.from_str s with
  | .ok h => .ok ⟨h⟩
  | .error e => .error (modelsErrorOfHashError e)

/-- Executable lexicographic strict order on byte lists, as Rust compares
byte arrays. -/
def bytesLexLt : List Nat → List Nat → Bool
  | [], [] => false
  | [], _ :: _ => true
  | _ :: _, [] => false
  | a :: as, b :: bs => if a < b then true else if a = b then bytesLexLt as bs else false

/-- Modelled from the spec: the digest's own total order — structural,
lexicographic over the digest bytes. -/
def Hash.lt (a b : Hash) : Bool := bytesLexLt a.digest b.digest

/-- The derived `Ord`/`PartialOrd` of the newtype (line 19) delegates to
the inner digest's order. -/
def SCOutputEventId.lt (a b : SCOutputEventId) : Bool := a.hash.lt b.hash

/-- Modelled from the spec: the pre-computed-hash capability declared by
`impl PreHashed for SCOutputEventId` (line 29) — the hash value a
hash-map/set container uses for this key is the digest itself, with no
rehashing. -/
def SCOutputEventId.containerKeyHash (e : SCOutputEventId) : List Nat :=
  e.hash.digest

theorem bytesLexLt_iff_lex : ∀ l₁ l₂ : List Nat,
    bytesLexLt l₁ l₂ = true ↔ List.Lex (· < ·) l₁ l₂
  | [], [] => iff_of_false (by simp [bytesLexLt]) (fun h => nomatch h)
  | [], _ :: _ => iff_of_true rfl List.Lex.nil
  | _ :: _, [] => iff_of_false (by simp [bytesLexLt]) (fun h => nomatch h)
  | a :: as, b :: bs => by
    have ih := bytesLexLt_iff_lex as bs
    simp only [bytesLexLt]
    split_ifs with h1 h2
    · exact iff_of_true rfl (List.Lex.rel h1)
    · subst h2
      constructor
      · intro h
        exact List.Lex.cons (ih.mp h)
      · intro h
        cases h with
        | cons h3 => exact ih.mpr h3
        | rel h3 => exact absurd h3 (lt_irrefl a)
    · constructor
      · intro h
        exact absurd h (by simp)
      · intro h
        cases h with
        | cons h3 => exact absurd rfl h2
        | rel h3 => exact absurd h3 h1

/-- Modelled from the spec: `Slot`, an opaque, already-defined value type
(the logical time unit); only structural equality matters here. -/
structure Slot where
  period : Nat
  thread : Nat
deriving DecidableEq

/-- Modelled from the spec: `BlockId`, an opaque, already-defined value
type; only structural equality matters here. -/
structure BlockId where
  val : Nat
deriving DecidableEq

/-- Modelled from the spec: `Address`, an opaque, already-defined value
type; only structural equality matters here. -/
structure Address where
  val : Nat
deriving DecidableEq

/-- `EventExecutionContext` (`output_event.rs` lines 118-130), with the
fields in declaration order; `call_stack` is the ordered call chain, most
recent at the end. -/
structure EventExecutionContext where
  slot : Slot
  block : Option BlockId
  read_only : Bool
  index_in_slot : Nat
  call_stack : List Address

/-- The derived `Clone` of `EventExecutionContext` (line 118): field-wise
duplication. -/
def EventExecutionContext.clone (c : EventExecutionContext) : EventExecutionContext :=
  ⟨c.slot, c.block, c.read_only, c.index_in_slot, c.call_stack⟩

/-- `SCOutputEvent` (`output_event.rs` lines 8-17), with the fields in
declaration order. -/
structure SCOutputEvent where
  id : SCOutputEventId
  context : EventExecutionContext
  data : String

/-- Modelled from the spec: the value alphabet of the structured record
encoding delegated to the external generic codec; opaque leaf values,
an explicit presence/absence marker for options, ordered sequences, and
named-field records. -/
inductive EncValue where
  | slotV : Slot → EncValue
  | blockIdV : BlockId → EncValue
  | addressV : Address → EncValue
  | boolV : Bool → EncValue
  | natV : Nat → EncValue
  | strV : String → EncValue
  | eventIdV : SCOutputEventId → EncValue
  | absentMarker : EncValue
  | presentMarker : EncValue → EncValue
  | seqV : List EncValue → EncValue
  | recordV : List (String × EncValue) → EncValue

/-- Modelled from the spec: the structured record encoding of
`EventExecutionContext` as the derived codec emits it — named fields in
declaration order, `block` as a presence/absence marker, `call_stack` as an
ordered sequence. -/
def serializeContext (c : EventExecutionContext) : List (String × EncValue) :=
  [("slot", EncValue.slotV c.slot),
   ("block", match c.block with
             | none => EncValue.absentMarker
             | some b => EncValue.presentMarker (EncValue.blockIdV b)),
   ("read_only", EncValue.boolV c.read_only),
   ("index_in_slot", EncValue.natV c.index_in_slot),
   ("call_stack", EncValue.seqV (c.call_stack.map EncValue.addressV))]

/-- Modelled from the spec: the structured record encoding of
`SCOutputEvent` as the derived codec emits it — named fields in
declaration order. -/
def serializeEvent (ev : SCOutputEvent) : List (String × EncValue) :=
  [("id", EncValue.eventIdV ev.id),
   ("context", EncValue.recordV (serializeContext ev.context)),
   ("data", EncValue.strV ev.data)]

/-- C1: for every valid digest `h`, decoding the fixed-size byte encoding
of the identity wrapping `h` yields that same identity:
`SCOutputEventId::from_bytes(&SCOutputEventId(h).to_bytes())` returns `Ok`
of an identity equal to `SCOutputEventId(h)`. -/
theorem SCOutputEventId.from_bytes_to_bytes (e : SCOutputEventId) :
    SCOutputEventId.from_bytes e.to_bytes = .ok e := by
  show SCOutputEventId.from_bytes e.hash.digest = .ok e
  unfold SCOutputEventId.from_bytes
  rw [Hash.from_bytes_digest]

/-- C2: for every identity `e`, decoding its checksummed textual encoding
yields that same identity:
`SCOutputEventId::from_bs58_check(&e.to_bs58_check())` returns `Ok` of an
identity equal to `e`. -/
theorem SCOutputEventId.bs58_check_roundtrip (e : SCOutputEventId) :
    SCOutputEventId.from_bs58_check e.to_bs58_check = .ok e := by
  unfold SCOutputEventId.from_bs58_check SCOutputEventId.to_bs58_check
  rw [Hash.bs58_roundtrip]

/-- C3: for every string `s`, the generic string parse (`FromStr`) and
`SCOutputEventId::from_bs58_check` yield identical results: both succeed
with equal identities, or both fail with the same error kind. -/
theorem SCOutputEventId.from_str_eq_from_bs58_check (s : List Char) :
    SCOutputEventId.from_str s = SCOutputEventId.from_bs58_check s := by
  unfold SCOutputEventId.from_str SCOutputEventId.from_bs58_check Hash.from_str
  cases Hash.from_bs58_check s <;> rfl

/-- C4: every decode entry point of `SCOutputEventId` (`from_bytes`,
`from_bs58_check`, string parse) fails only with the single hash-decode
error kind (`ModelsError::HashError`) on every malformed input — including
any byte sequence of wrong length and any string with a corrupted
checksum; the encode paths always produce a well-formed value (the byte
encoding always has the exact digest length). -/
theorem SCOutputEventId.decode_error_discipline :
    (∀ data e, SCOutputEventId.from_bytes data = .error e → e = ModelsError.hashError) ∧
    (∀ data, data.length ≠ EVENT_ID_SIZE_BYTES →
      SCOutputEventId.from_bytes data = .error ModelsError.hashError) ∧
    (∀ s e, SCOutputEventId.from_bs58_check s = .error e → e = ModelsError.hashError) ∧
    (∀ s e, SCOutputEventId.from_str s = .error e → e = ModelsError.hashError) ∧
    (∀ s bytes, base58Decode s = some bytes →
      bytes.drop (bytes.length - 4) ≠ checksum (bytes.take (bytes.length - 4)) →
      SCOutputEventId.from_bs58_check s = .error ModelsError.hashError) ∧
    (∀ e : SCOutputEventId, e.to_bytes.length = EVENT_ID_SIZE_BYTES) := by
  refine ⟨?_, ?_, ?_, ?_, ?_, ?_⟩
  · intro data e h
    cases hh : Hash.from_bytes data with
    | ok hsh => simp [SCOutputEventId.from_bytes, hh] at h
    | error err =>
      simp [SCOutputEventId.from_bytes, hh] at h
      exact h.symm
  · intro data hlen
    unfold SCOutputEventId.from_bytes Hash.from_bytes
    rw [dif_neg (fun hcon => hlen hcon.1)]
  · intro s e h
    cases hh : Hash.from_bs58_check s with
    | ok hsh => simp [SCOutputEventId.from_bs58_check, hh] at h
    | error err =>
      simp [SCOutputEventId.from_bs58_check, hh] at h
      exact h.symm
  · intro s e h
    cases hh : Hash.from_str s with
    | ok hsh => simp [SCOutputEventId.from_str, hh] at h
    | error err =>
      simp [SCOutputEventId.from_str, hh, modelsErrorOfHashError] at h
      exact h.symm
  · intro s bytes hdec hne
    unfold SCOutputEventId.from_bs58_check Hash.from_bs58_check
    rw [hdec]
    simp only [if_neg hne]
  · intro e
    exact e.hash.size_ok

/-- Witness for C4: concrete malformed inputs — the empty byte sequence
(wrong length) and a one-character base58 string whose decoded checksum
does not match — each fail with exactly the hash error kind. -/
theorem SCOutputEventId.decode_error_discipline_witness :
    SCOutputEventId.from_bytes [] = .error ModelsError.hashError ∧
    SCOutputEventId.from_bs58_check ['2'] = .error ModelsError.hashError ∧
    ModelsError.hashError = ModelsError.hashError ∧
    ModelsError.hashError = ModelsError.hashError ∧
    ModelsError.hashError = ModelsError.hashError :=
  ⟨SCOutputEventId.decode_error_discipline.2.1 [] (by decide),
   SCOutputEventId.decode_error_discipline.2.2.2.2.1 ['2'] [1] (by rfl) (by decide),
   SCOutputEventId.decode_error_discipline.1 [] ModelsError.hashError (by rfl),
   SCOutputEventId.decode_error_discipline.2.2.1 ['0'] ModelsError.hashError (by rfl),
   SCOutputEventId.decode_error_discipline.2.2.2.1 ['0'] ModelsError.hashError (by rfl)⟩

/-- C5: equality and ordering of `SCOutputEventId` are structural over the
digest bytes: `a == b` iff the byte encodings are identical, and `a < b`
iff the byte encoding of `a` is lexicographically less than that of
`b`. -/
theorem SCOutputEventId.eq_and_lt_structural (a b : SCOutputEventId) :
    (a = b ↔ a.to_bytes = b.to_bytes) ∧
    (SCOutputEventId.lt a b = true ↔ List.Lex (· < ·) a.to_bytes b.to_bytes) := by
  constructor
  · constructor
    · intro h
      rw [h]
    · intro h
      have hh : a.hash = b.hash := Hash.eq_of_digest_eq h
      cases a
      cases b
      cases hh
      rfl
  · exact bytesLexLt_iff_lex a.hash.digest b.hash.digest

/-- C6: the hash value used when the identity serves as a hash-map/set
container key is exactly its digest bytes; no rehashing of the digest is
performed to derive the container key hash. -/
theorem SCOutputEventId.containerKeyHash_eq_to_bytes (e : SCOutputEventId) :
    e.containerKeyHash = e.to_bytes := rfl

/-- C7: `EventExecutionContext` is a closed record: two contexts are equal
iff all five fields are pairwise equal, and the (derived `Clone`)
duplication yields an equal value. -/
theorem EventExecutionContext.structural_eq_and_clone (a b : EventExecutionContext) :
    (a = b ↔ a.slot = b.slot ∧ a.block = b.block ∧ a.read_only = b.read_only ∧
      a.index_in_slot = b.index_in_slot ∧ a.call_stack = b.call_stack) ∧
    EventExecutionContext.clone a = a := by
  refine ⟨⟨fun h => by rw [h]; exact ⟨rfl, rfl, rfl, rfl, rfl⟩, ?_⟩, rfl⟩
  rintro ⟨h1, h2, h3, h4, h5⟩
  cases a
  cases b
  simp_all

/-- C8: reading back `call_stack` from a constructed
`EventExecutionContext` returns exactly the sequence supplied at
construction, in the same order — no sorting, no deduplication, no
reordering. -/
theorem EventExecutionContext.call_stack_readback (s : Slot) (b : Option BlockId)
    (ro : Bool) (i : Nat) (cs : List Address) :
    (EventExecutionContext.mk s b ro i cs).call_stack = cs := rfl

/-- C9: the structured encoding of an `SCOutputEvent` emits its fields in
the order `id`, `context`, `data`, and within the context in the order
`slot`, `block`, `read_only`, `index_in_slot`, `call_stack`; `block` is
encoded as an explicit presence/absence marker and `call_stack` as an
ordered variable-length sequence preserving append order. -/
theorem serializeEvent_field_order (ev : SCOutputEvent) :
    (serializeEvent ev).map Prod.fst = ["id", "context", "data"] ∧
    (serializeContext ev.context).map Prod.fst =
      ["slot", "block", "read_only", "index_in_slot", "call_stack"] ∧
    (serializeContext ev.context).lookup "block" =
      some (match ev.context.block with
            | none => EncValue.absentMarker
            | some b => EncValue.presentMarker (EncValue.blockIdV b)) ∧
    (serializeContext ev.context).lookup "call_stack" =
      some (EncValue.seqV (ev.context.call_stack.map EncValue.addressV)) := by
  refine ⟨rfl, rfl, rfl, rfl⟩

/-- C10: for every `SCOutputEventId`, the consuming byte encoding agrees
with the borrowing one — `into_bytes` equals `to_bytes` — so both are
interchangeable for round-tripping through `from_bytes`. -/
theorem SCOutputEventId.into_bytes_roundtrip (e : SCOutputEventId) :
    e.into_bytes = e.to_bytes ∧ SCOutputEventId.from_bytes e.into_bytes = .ok e := by
  refine ⟨rfl, ?_⟩
  show SCOutputEventId.from_bytes e.hash.digest = .ok e
  unfold SCOutputEventId.from_bytes
  rw [Hash.from_bytes_digest]
